import Mathlib

/-
Shallow embedding of the ynap record-transformation engine
(src/lib.rs, src/main.rs, src/template.rs).

Modelling conventions:
* Rust HashMap values are embedded as association lists (List (String × String));
  insertion replaces the value at an existing key, lookup returns the first hit.
  Iteration order of a HashMap is arbitrary in Rust; the embedding fixes the
  list order, and none of the proved claims depends on a particular order.
* External crates (regex, chrono, inflector) are not code of this repository;
  their behaviour is abstracted into the Externals structure below.  A compiled
  regular expression is modelled by its observable behaviour here: the map from
  a subject string to the optional list of named captures; is_match holds
  exactly when captures succeeds, as in the regex crate.
* Rust panics (expect, the template command failures) are modelled as None or
  as Except.error results.
-/

namespace Ynap

/-- Association list insert modelling HashMap insert: replaces the value at an
existing key, otherwise appends the binding. -/
def insertAssoc : List (String × String) → String → String → List (String × String)
  | [], k, v => [(k, v)]
  | (k0, v0) :: rest, k, v =>
    if k0 = k then (k, v) :: rest else (k0, v0) :: insertAssoc rest k v

/-- Association list lookup modelling HashMap get. -/
def lookupAssoc : List (String × String) → String → Option String
  | [], _ => none
  | (k0, v0) :: rest, k => if k0 = k then some v0 else lookupAssoc rest k

/-- DecimalSeparator from src/lib.rs. -/
inductive DecimalSeparator where
  | Period
  | Comma
deriving DecidableEq

/-- Removes every occurrence of a character; models str::replace with a
one-character pattern and an empty replacement. -/
def removeChar (c : Char) (s : List Char) : List Char :=
  s.filter (fun x => x != c)

/-- Replaces every occurrence of one character by another; models str::replace
with one-character pattern and replacement. -/
def swapChar (a b : Char) (s : List Char) : List Char :=
  s.map (fun x => if x = a then b else x)

/-- DecimalSeparator::simplify from src/lib.rs: Period removes commas; Comma
removes periods and then turns commas into periods. -/
def DecimalSeparator.simplify (sep : DecimalSeparator) (s : String) : String :=
  match sep with
  | .Period => String.mk (removeChar ',' s.data)
  | .Comma => String.mk (swapChar ',' '.' (removeChar '.' s.data))

/-- Field from src/lib.rs: the column-mapping descriptor. -/
inductive Field where
  | Ignore
  | Date (format : String)
  | Payee
  | Category
  | Memo
  | Inflow (sep : DecimalSeparator)
  | Outflow (sep : DecimalSeparator)
  | Extra (key : String)
deriving DecidableEq

/-- A compiled regular expression of the regex crate, abstracted to its
captures behaviour: for a subject string, None when the pattern does not
match, otherwise the list of named captures (name, matched text) in
capture_names order. -/
structure Regex where
  captures : String → Option (List (String × String))

/-- Regex::is_match: the regex crate reports a match exactly when captures
would succeed. -/
def Regex.isMatch (re : Regex) (s : String) : Bool :=
  (re.captures s).isSome

/-- Behaviour of the external crates used by the engine, abstracted:
compile is regex::Regex::new on a valid pattern; compileSet is
RegexSetBuilder (patterns, case_insensitive) giving the sets is_match;
escape is regex::escape; parseDate fmt v is chrono
NaiveDate::parse_from_str(v, fmt) followed by formatting as %Y-%m-%d;
titleCase is Inflector to_title_case. -/
structure Externals where
  compile : String → Regex
  compileSet : List String → Bool → (String → Bool)
  escape : String → String
  parseDate : String → String → Option String
  titleCase : String → String

/-- Record from src/lib.rs. -/
structure Record where
  date : String
  payee : String
  category : String
  memo : String
  amount : String
  extra : List (String × String)
  transformed : Bool
deriving DecidableEq

/-- Record::new from src/lib.rs. -/
def Record.new : Record :=
  { date := "", payee := "", category := "", memo := "", amount := ""
  , extra := [], transformed := false }

/-- Record::get from src/lib.rs. -/
def Record.get (r : Record) (key : String) : Option String :=
  if key = "date" then some r.date
  else if key = "payee" then some r.payee
  else if key = "category" then some r.category
  else if key = "memo" then some r.memo
  else if key = "amount" then some r.amount
  else lookupAssoc r.extra key

/-- Record::replace from src/lib.rs: swaps in the new value and returns the
previous value of the slot, None only for an absent extra key. -/
def Record.replace (r : Record) (key : String) (value : String) :
    Option String × Record :=
  if key = "date" then (some r.date, { r with date := value })
  else if key = "payee" then (some r.payee, { r with payee := value })
  else if key = "category" then (some r.category, { r with category := value })
  else if key = "memo" then (some r.memo, { r with memo := value })
  else if key = "amount" then (some r.amount, { r with amount := value })
  else (lookupAssoc r.extra key, { r with extra := insertAssoc r.extra key value })

/-- One arm of the match of Record::from in src/lib.rs: how a single mapping
entry updates the record from its cell.  A failed date parse is a panic in
the source, hence None here. -/
def stepRecord (ext : Externals) (col : Field) (v : String) (r : Record) :
    Option Record :=
  match col with
  | .Ignore => some r
  | .Date format =>
    if format = "" then some { r with date := v }
    else
      match ext.parseDate format v with
      | none => none
      | some d => some { r with date := d }
  | .Payee => some { r with payee := v }
  | .Category => some { r with category := v }
  | .Memo => some { r with memo := v }
  | .Inflow sep => some { r with amount := sep.simplify v }
  | .Outflow sep => some { r with amount := "-" ++ sep.simplify v }
  | .Extra key => some { r with extra := insertAssoc r.extra key v }

/-- Loop of Record::from in src/lib.rs, iterating positionally over the
mapping and the input row.  A missing cell (row shorter than the mapping) is
a panic in the source, hence None here. -/
def fromGo (ext : Externals) : List String → List Field → Record → Option Record
  | _, [], r => some r
  | [], _ :: _, _ => none
  | v :: vs, col :: cols, r =>
    match stepRecord ext col v r with
    | none => none
    | some r1 => fromGo ext vs cols r1

/-- Record::from in src/lib.rs (from is a Lean keyword, hence fromRow). -/
def Record.fromRow (ext : Externals) (input : List String) (mapping : List Field) :
    Option Record :=
  fromGo ext input mapping Record.new

/-- ASCII word character, the [[:word:]] class of the template placeholder
regular expression in src/template.rs. -/
def isWordChar (c : Char) : Bool :=
  ('a' ≤ c && c ≤ 'z') || ('A' ≤ c && c ≤ 'Z') || ('0' ≤ c && c ≤ '9') || c == '_'

/-- Maximal run of word characters at the front of a string; the greedy
[[:word:]]+ of the placeholder regular expression. -/
def takeWord : List Char → List Char × List Char
  | [] => ([], [])
  | c :: cs =>
    if isWordChar c then
      let res := takeWord cs
      (c :: res.1, res.2)
    else ([], c :: cs)

/-- Attempts to match the placeholder pattern of src/template.rs at the start
of the text; on success returns the key, the optional command, and the rest of
the text after the placeholder. -/
def matchPlaceholder : List Char → Option ((String × Option String) × List Char)
  | '$' :: '{' :: cs =>
    let res := takeWord cs
    if res.1.isEmpty then none
    else
      match res.2 with
      | '}' :: rest2 => some ((String.mk res.1, none), rest2)
      | '|' :: cs2 =>
        let res2 := takeWord cs2
        if res2.1.isEmpty then none
        else
          match res2.2 with
          | '}' :: rest3 => some ((String.mk res.1, some (String.mk res2.1)), rest3)
          | _ => none
      | _ => none
  | _ => none

/-- PLACEHOLDER.is_match of src/template.rs: the placeholder pattern matches
somewhere in the text. -/
def hasPlaceholder (cs : List Char) : Bool :=
  cs.tails.any (fun t => (matchPlaceholder t).isSome)

/-- Fuelled scanner for captures_iter of src/template.rs: finds the leftmost
placeholder matches in order, returning for each its preceding literal text
and (key, optional command), together with the trailing literal text.  The
fuel only bounds recursion; scan supplies enough. -/
def scanGo : Nat → List Char → List (List Char × (String × Option String)) × List Char
  | _, [] => ([], [])
  | 0, cs => ([], cs)
  | fuel + 1, c :: cs =>
    match matchPlaceholder (c :: cs) with
    | some (ph, rest) =>
      let res := scanGo fuel rest
      (([], ph) :: res.1, res.2)
    | none =>
      let res := scanGo fuel cs
      match res.1 with
      | [] => ([], c :: res.2)
      | (lit, ph) :: more => ((c :: lit, ph) :: more, res.2)

/-- Scanner for the placeholder occurrences of a template. -/
def scan (cs : List Char) : List (List Char × (String × Option String)) × List Char :=
  scanGo cs.length cs

/-- The two fatal template failures of src/template.rs (panics in the
source). -/
inductive TemplateError where
  | emptyValue (key : String)
  | invalidCommand (command : String)
deriving DecidableEq

/-- The command dispatch of interpolate in src/template.rs. -/
def applyCommand (ext : Externals) (key value command : String) :
    Except TemplateError String :=
  if command = "title_case" then .ok (ext.titleCase value)
  else if command = "lowercase" then .ok value.toLower
  else if command = "uppercase" then .ok value.toUpper
  else if command = "not_empty" then
    if value.isEmpty then .error (.emptyValue key) else .ok value
  else .error (.invalidCommand command)

/-- Processes the scanned placeholder segments of a template left to right,
looking up each key, applying the optional command, and concatenating
literal text and values; the first failing command aborts. -/
def interpGo (ext : Externals) (func : String → String) :
    List (List Char × (String × Option String)) → Except TemplateError String
  | [] => .ok ""
  | (lit, (key, command)) :: rest =>
    let value := func key
    match command with
    | none =>
      match interpGo ext func rest with
      | .error e => .error e
      | .ok t => .ok (String.mk lit ++ value ++ t)
    | some c =>
      match applyCommand ext key value c with
      | .error e => .error e
      | .ok value2 =>
        match interpGo ext func rest with
        | .error e => .error e
        | .ok t => .ok (String.mk lit ++ value2 ++ t)

/-- interpolate from src/template.rs.  The no-placeholder fast path returns
the template unchanged; otherwise every placeholder is replaced by the looked
up (and command-processed) value. -/
def interpolate (ext : Externals) (tmpl : String) (func : String → String) :
    Except TemplateError String :=
  if hasPlaceholder tmpl.data then
    let res := scan tmpl.data
    match interpGo ext func res.1 with
    | .error e => .error e
    | .ok s => .ok (s ++ String.mk res.2)
  else .ok tmpl

/-- Matcher from src/lib.rs. -/
structure Matcher where
  search : List (String × Regex)
  replace : List (String × String)

/-- MatcherBuilder from src/lib.rs. -/
structure MatcherBuilder where
  label : Option String
  search : List (String × String)
  replace : List (String × String)

/-- MatcherBuilder::build from src/lib.rs: compiles every search pattern. -/
def MatcherBuilder.build (b : MatcherBuilder) (ext : Externals) : Matcher :=
  { search := b.search.map (fun kv => (kv.1, ext.compile kv.2))
  , replace := b.replace }

/-- Inserts the named captures of one regex match into the shared capture
table; a later capture with the same name overwrites an earlier one. -/
def insertCaptures (table : List (String × String)) (caps : List (String × String)) :
    List (String × String) :=
  caps.foldl (fun t kv => insertAssoc t kv.1 kv.2) table

/-- First loop of Matcher::transform in src/lib.rs: checks that every search
pattern matches its field and collects all named captures into one table;
None when a field is absent or a pattern fails. -/
def collectCaptures (r : Record) :
    List (String × Regex) → List (String × String) → Option (List (String × String))
  | [], table => some table
  | (k, re) :: rest, table =>
    match r.get k with
    | none => none
    | some field =>
      match re.captures field with
      | none => none
      | some caps => collectCaptures r rest (insertCaptures table caps)

/-- Second loop of Matcher::transform in src/lib.rs: interpolates every
replace template, looking keys up first in the capture table, then in the
current record, defaulting to the empty string, and writes the result into
the record. -/
def applyReplaces (ext : Externals) (table : List (String × String)) :
    List (String × String) → Record → Except TemplateError Record
  | [], r => .ok r
  | (k, tmpl) :: rest, r =>
    match interpolate ext tmpl (fun key =>
      match lookupAssoc table key with
      | some x => x
      | none =>
        match r.get key with
        | some x => x
        | none => "") with
    | .error e => .error e
    | .ok value => applyReplaces ext table rest (r.replace k value).2

/-- Matcher::transform from src/lib.rs.  Returns Except because template
interpolation can abort the run. -/
def Matcher.transform (m : Matcher) (ext : Externals) (r : Record) :
    Except TemplateError (Bool × Record) :=
  match collectCaptures r m.search [] with
  | none => .ok (false, r)
  | some table =>
    match applyReplaces ext table m.replace r with
    | .error e => .error e
    | .ok r2 => .ok (true, { r2 with transformed := true })

/-- Payees from src/lib.rs; an alias set is abstracted to its is_match
behaviour. -/
structure Payees where
  aliases : List (String × (String → Bool))
  strict : Bool

/-- maybe_escape from src/lib.rs. -/
def maybe_escape (ext : Externals) (s : String) : String :=
  if s.startsWith "^" && s.endsWith "$" then s else ext.escape s

/-- Payees::new from src/lib.rs: compiles each alias list into a regex set
(escaping aliases not wrapped in anchors) and always sets strict to false. -/
def Payees.new (ext : Externals) (map : List (String × List String))
    (case_insensitive : Bool) : Payees :=
  { aliases := map.map (fun kv =>
      (kv.1, ext.compileSet (kv.2.map (maybe_escape ext)) case_insensitive))
  , strict := false }

/-- Loop of Payees::transform in src/lib.rs: counts matches of the original
payee text; in strict mode the first match rewrites the payee and later
matches only warn; otherwise the first match rewrites the payee and the loop
breaks. -/
def payeesGo (strict : Bool) (original : String) :
    List (String × (String → Bool)) → Nat → Record → Nat × Record
  | [], n, r => (n, r)
  | (k, set) :: rest, n, r =>
    if set original then
      if strict then
        if n + 1 = 1 then payeesGo strict original rest (n + 1) { r with payee := k }
        else payeesGo strict original rest (n + 1) r
      else (n + 1, { r with payee := k })
    else payeesGo strict original rest n r

/-- Payees::transform from src/lib.rs: fires when at least one alias set
matched the original payee text. -/
def Payees.transform (p : Payees) (r : Record) : Bool × Record :=
  let res := payeesGo p.strict r.payee p.aliases 0 r
  (res.1 != 0, res.2)

/-- The two dynamic rule kinds behind the Transformer trait objects of
src/main.rs. -/
inductive Transformer where
  | matcher (m : Matcher)
  | payees (p : Payees)

/-- Dynamic dispatch of transform over the two rule kinds. -/
def Transformer.transform (t : Transformer) (ext : Externals) (r : Record) :
    Except TemplateError (Bool × Record) :=
  match t with
  | .matcher m => m.transform ext r
  | .payees p => .ok (p.transform r)

/-- Rules from src/main.rs. -/
structure Rules where
  pre_transform : List MatcherBuilder
  payees : List (String × List String)
  post_transform : List MatcherBuilder

/-- MrClean from src/main.rs. -/
structure MrClean where
  transformers : List Transformer

/-- MrClean::from in src/main.rs (from is a Lean keyword, hence ofRules):
pushes the pre_transform matchers, then the payee resolver built by
Payees::new with case_insensitive = true, then the post_transform
matchers. -/
def MrClean.ofRules (ext : Externals) (r : Rules) : MrClean :=
  let tx : List Transformer :=
    r.pre_transform.foldl (fun acc b => acc ++ [Transformer.matcher (b.build ext)]) []
  let tx := tx ++ [Transformer.payees (Payees.new ext r.payees true)]
  let tx := r.post_transform.foldl
    (fun acc b => acc ++ [Transformer.matcher (b.build ext)]) tx
  { transformers := tx }

/-- The fold of MrClean::transform (and of the Vec of Matcher impl) in the
source: applies every member in order, carrying the or-accumulator; a
template failure aborts. -/
def chainTransform (ext : Externals) :
    List Transformer → Bool → Record → Except TemplateError (Bool × Record)
  | [], a, r => .ok (a, r)
  | t :: ts, a, r =>
    match t.transform ext r with
    | .error e => .error e
    | .ok (fired, r2) => chainTransform ext ts (fired || a) r2

/-- MrClean::transform from src/main.rs. -/
def MrClean.transform (mc : MrClean) (ext : Externals) (r : Record) :
    Except TemplateError (Bool × Record) :=
  chainTransform ext mc.transformers false r

/-- Reference run of a rule chain: invokes every member in sequence on the
evolving record and collects each members fired result. -/
def runEach (ext : Externals) :
    List Transformer → Record → Except TemplateError (List Bool × Record)
  | [], r => .ok ([], r)
  | t :: ts, r =>
    match t.transform ext r with
    | .error e => .error e
    | .ok (b, r2) =>
      match runEach ext ts r2 with
      | .error e => .error e
      | .ok (bs, r3) => .ok (b :: bs, r3)

/-- The Record slot written by a mapping entry: Ignore writes nothing,
Inflow and Outflow both write the amount slot, Extra writes its own key. -/
def keyOf : Field → Option String
  | .Ignore => none
  | .Date _ => some "date"
  | .Payee => some "payee"
  | .Category => some "category"
  | .Memo => some "memo"
  | .Inflow _ => some "amount"
  | .Outflow _ => some "amount"
  | .Extra k => some k

/-- The value a mapping entry derives from its cell, per Record::from. -/
def derivedValue (ext : Externals) (col : Field) (v : String) : Option String :=
  match col with
  | .Ignore => none
  | .Date format => if format = "" then some v else ext.parseDate format v
  | .Payee => some v
  | .Category => some v
  | .Memo => some v
  | .Inflow sep => some (sep.simplify v)
  | .Outflow sep => some ("-" ++ sep.simplify v)
  | .Extra _ => some v

/-- Every Date entry with a non-empty format parses its cell successfully. -/
def datesOk (ext : Externals) : List String → List Field → Bool
  | v :: vs, col :: cols =>
    (match col with
     | .Date format => format == "" || (ext.parseDate format v).isSome
     | _ => true) && datesOk ext vs cols
  | _, _ => true

/-- The five canonical Record keys. -/
def canonicalKeys : List String := ["date", "payee", "category", "memo", "amount"]

/-- An Extra entry whose key shadows a canonical slot is stored in the extra
map but not retrievable through get; this predicate rules that out. -/
def extraOk : Field → Bool
  | .Extra k => !(canonicalKeys.contains k)
  | _ => true

/-- Entry i of the mapping is the last entry writing its target key. -/
def lastForKey (mapping : List Field) (i : Nat) : Bool :=
  (mapping.drop (i + 1)).all (fun f => keyOf f != keyOf (mapping.getD i Field.Ignore))

/-- Exact placeholder shape of the template grammar, transcribed from the
specification: a dollar and open brace, a nonempty word (the key), then
either a close brace, or a bar, a nonempty word (the command) and a close
brace. -/
def isPlaceholderString : List Char → Bool
  | '$' :: '{' :: rest =>
    let res := takeWord rest
    !res.1.isEmpty &&
      (res.2 == ['}'] ||
        (match res.2 with
         | '|' :: r2 =>
           let res2 := takeWord r2
           !res2.1.isEmpty && res2.2 == ['}']
         | _ => false))
  | _ => false

/-- The text contains a placeholder-shaped substring (specification-side
notion used to state the no-placeholder identity claim). -/
def containsPlaceholder (cs : List Char) : Bool :=
  cs.tails.any (fun t => t.inits.any (fun p => isPlaceholderString p))

/-- A placeholder whose command makes interpolation fail under a given
lookup: not_empty on an empty looked-up value, or an unknown command. -/
def badPlaceholder (func : String → String) (pc : String × Option String) : Prop :=
  match pc.2 with
  | none => False
  | some c =>
    (c = "not_empty" ∧ func pc.1 = "")
    ∨ (c ≠ "title_case" ∧ c ≠ "lowercase" ∧ c ≠ "uppercase" ∧ c ≠ "not_empty")

/-- Concrete external behaviour used by witnesses: a regex that never
matches, alias sets that never match, identity escaping and title casing,
and a date parser that always fails. -/
def extW : Externals :=
  { compile := fun _ => ⟨fun _ => none⟩
  , compileSet := fun _ _ => fun _ => false
  , escape := fun s => s
  , parseDate := fun _ _ => none
  , titleCase := fun s => s }

/-- Concrete external behaviour whose date parser knows exactly the one date
used by the Record::from witness. -/
def extW2 : Externals :=
  { extW with parseDate := fun format v =>
      if format == "%m/%d/%Y" && v == "01/15/2023" then some "2023-01-15" else none }

/-- Digit groups joined by a grouping mark. -/
def joinGroups (sep : Char) : List (List Char) → List Char
  | [] => []
  | [g] => g
  | g :: gs => g ++ sep :: joinGroups sep gs

/-- Optional fractional part rendered after a decimal mark. -/
def fracPart (dec : Char) : Option (List Char) → List Char
  | none => []
  | some f => dec :: f

/-- A decimal numeral written with the given grouping mark between digit
groups and the given decimal mark before the fractional digits. -/
def renderGrouped (group dec : Char) (gs : List (List Char))
    (frac : Option (List Char)) : String :=
  String.mk (joinGroups group gs ++ fracPart dec frac)

/-- The same numeral in canonical form: grouping marks removed, period as the
only decimal mark. -/
def renderCanonical (gs : List (List Char)) (frac : Option (List Char)) : String :=
  String.mk (gs.flatten ++ fracPart '.' frac)

/-! Association list lemmas. -/

theorem lookupAssoc_insertAssoc_self (l : List (String × String)) (k v : String) :
    lookupAssoc (insertAssoc l k v) k = some v := by
  induction l with
  | nil => simp [insertAssoc, lookupAssoc]
  | cons kv rest ih =>
    obtain ⟨k0, v0⟩ := kv
    by_cases h : k0 = k
    · simp [insertAssoc, h, lookupAssoc]
    · simp [insertAssoc, h, lookupAssoc, ih]

theorem lookupAssoc_insertAssoc_ne (l : List (String × String)) (key v k : String)
    (h : key ≠ k) : lookupAssoc (insertAssoc l key v) k = lookupAssoc l k := by
  induction l with
  | nil => simp [insertAssoc, lookupAssoc, h]
  | cons kv rest ih =>
    obtain ⟨k0, v0⟩ := kv
    by_cases h0 : k0 = key
    · subst h0; simp [insertAssoc, lookupAssoc, h]
    · simp [insertAssoc, h0, lookupAssoc, ih]

/-! Record get and update lemmas. -/

theorem get_amount (r : Record) : r.get "amount" = some r.amount := rfl

theorem get_update_date (r : Record) (v k : String) (hk : k ≠ "date") :
    Record.get { r with date := v } k = r.get k := by
  simp [Record.get, hk]

theorem get_update_payee (r : Record) (v k : String) (hk : k ≠ "payee") :
    Record.get { r with payee := v } k = r.get k := by
  simp [Record.get, hk]

theorem get_update_category (r : Record) (v k : String) (hk : k ≠ "category") :
    Record.get { r with category := v } k = r.get k := by
  simp [Record.get, hk]

theorem get_update_memo (r : Record) (v k : String) (hk : k ≠ "memo") :
    Record.get { r with memo := v } k = r.get k := by
  simp [Record.get, hk]

theorem get_update_amount (r : Record) (v k : String) (hk : k ≠ "amount") :
    Record.get { r with amount := v } k = r.get k := by
  simp [Record.get, hk]

theorem get_update_extra_ne (r : Record) (key v k : String) (hk : key ≠ k) :
    Record.get { r with extra := insertAssoc r.extra key v } k = r.get k := by
  simp [Record.get, lookupAssoc_insertAssoc_ne r.extra key v k hk]

theorem get_date_set (r : Record) (v : String) :
    Record.get { r with date := v } "date" = some v := rfl

theorem get_payee_set (r : Record) (v : String) :
    Record.get { r with payee := v } "payee" = some v := rfl

theorem get_category_set (r : Record) (v : String) :
    Record.get { r with category := v } "category" = some v := rfl

theorem get_memo_set (r : Record) (v : String) :
    Record.get { r with memo := v } "memo" = some v := rfl

theorem get_amount_set (r : Record) (v : String) :
    Record.get { r with amount := v } "amount" = some v := rfl

theorem get_extra_set (r : Record) (key v : String)
    (h : canonicalKeys.contains key = false) :
    Record.get { r with extra := insertAssoc r.extra key v } key = some v := by
  have h1 : ¬ key = "date" := by intro he; subst he; exact absurd h (by decide)
  have h2 : ¬ key = "payee" := by intro he; subst he; exact absurd h (by decide)
  have h3 : ¬ key = "category" := by intro he; subst he; exact absurd h (by decide)
  have h4 : ¬ key = "memo" := by intro he; subst he; exact absurd h (by decide)
  have h5 : ¬ key = "amount" := by intro he; subst he; exact absurd h (by decide)
  simp [Record.get, h1, h2, h3, h4, h5, lookupAssoc_insertAssoc_self]

/-! Payees lemmas and claim C9. -/

theorem payeesGo_payee_only : ∀ (strict : Bool) (original : String)
    (al : List (String × (String → Bool))) (n : Nat) (r : Record),
    ∃ s, (payeesGo strict original al n r).2 = { r with payee := s }
  | _, _, [], _, r => ⟨r.payee, rfl⟩
  | strict, original, (k, set) :: rest, n, r => by
    simp only [payeesGo]
    split
    · split
      · split
        · obtain ⟨s, hs⟩ :=
            payeesGo_payee_only strict original rest (n + 1) { r with payee := k }
          exact ⟨s, hs⟩
        · obtain ⟨s, hs⟩ := payeesGo_payee_only strict original rest (n + 1) r
          exact ⟨s, hs⟩
      · exact ⟨k, rfl⟩
    · obtain ⟨s, hs⟩ := payeesGo_payee_only strict original rest n r
      exact ⟨s, hs⟩

/-- Claim C9: Payees::transform may change only the payee slot.  The date,
category, memo, amount slots, the extra fields and the transformed flag are
unchanged, in strict and non-strict mode alike, whether or not any alias
matched. -/
theorem c9_payees_frame (p : Payees) (r : Record) :
    (p.transform r).2.date = r.date ∧ (p.transform r).2.category = r.category
    ∧ (p.transform r).2.memo = r.memo ∧ (p.transform r).2.amount = r.amount
    ∧ (p.transform r).2.extra = r.extra
    ∧ (p.transform r).2.transformed = r.transformed := by
  obtain ⟨s, hs⟩ := payeesGo_payee_only p.strict r.payee p.aliases 0 r
  simp [Payees.transform, hs]

/-! Pipeline construction lemmas and claim C1. -/

theorem foldl_push {α β : Type} (g : β → α) :
    ∀ (l : List β) (acc : List α),
      l.foldl (fun a b => a ++ [g b]) acc = acc ++ l.map g := by
  intro l
  induction l with
  | nil => intro acc; simp
  | cons b bs ih => intro acc; simp [ih]

/-- Claim C1 (amended): the canonical pipeline is all pre_transform Matchers
in declaration order, then exactly one Payee Resolver built by Payees::new
with case-insensitive alias matching, then all post_transform Matchers in
declaration order; Payees::new always turns strict mode OFF, so the resolver
in the pipeline is not strict. -/
theorem c1_amended (ext : Externals) (rules : Rules) :
    ( MrClean.ofRules ext rules).transformers
      = rules.pre_transform.map (fun b => Transformer.matcher (b.build ext))
        ++ [Transformer.payees (Payees.new ext rules.payees true)]
        ++ rules.post_transform.map (fun b => Transformer.matcher (b.build ext))
    ∧ (Payees.new ext rules.payees true).strict = false := by
  constructor
  · simp [ MrClean.ofRules, foldl_push]
  · rfl

/-- Claim C1 as stated is false at a concrete rule file: the pipeline built
from one payee alias and no matchers consists of exactly the one resolver
produced by Payees::new, and that resolver has strict = false, not the strict
mode the claim asserts. -/
theorem c1_counterexample :
    ( MrClean.ofRules extW
        { pre_transform := [], payees := [("A", ["a"])], post_transform := [] }).transformers
      = [Transformer.payees (Payees.new extW [("A", ["a"])] true)]
    ∧ (Payees.new extW [("A", ["a"])] true).strict = false :=
  ⟨rfl, rfl⟩

/-! Rule chain lemmas and claim C5. -/

theorem chain_of_runEach (ext : Externals) :
    ∀ (ts : List Transformer) (r : Record) (bs : List Bool) (r2 : Record) (a : Bool),
      runEach ext ts r = .ok (bs, r2) →
      chainTransform ext ts a r = .ok (bs.any id || a, r2) := by
  intro ts
  induction ts with
  | nil =>
    intro r bs r2 a h
    simp only [runEach, Except.ok.injEq, Prod.mk.injEq] at h
    obtain ⟨h1, h2⟩ := h
    subst h1; subst h2
    simp [chainTransform]
  | cons t ts ih =>
    intro r bs r2 a h
    simp only [runEach] at h
    cases ht : t.transform ext r with
    | error e =>
      rw [ht] at h
      have h2 : (Except.error e : Except TemplateError (List Bool × Record))
          = Except.ok (bs, r2) := h
      cases h2
    | ok br =>
      obtain ⟨b, rmid⟩ := br
      rw [ht] at h
      have h2 : (match runEach ext ts rmid with
          | Except.error e => Except.error e
          | Except.ok (bs, r3) => Except.ok (b :: bs, r3)) = Except.ok (bs, r2) := h
      cases hrest : runEach ext ts rmid with
      | error e => rw [hrest] at h2; cases h2
      | ok bsr =>
        obtain ⟨bs2, r3⟩ := bsr
        rw [hrest] at h2
        simp only [Except.ok.injEq, Prod.mk.injEq] at h2
        obtain ⟨h1, h4⟩ := h2
        subst h1
        rw [← h4]
        simp only [chainTransform, ht]
        rw [ih rmid bs2 r3 (b || a) hrest]
        simp [List.any_cons, Bool.or_assoc, Bool.or_comm, Bool.or_left_comm]

/-- Claim C5: a rule chain invokes every member in sequence on the evolving
record regardless of whether earlier members fired, and its transform
returns true exactly when at least one member returned true. -/
theorem c5_chain (ext : Externals) (ts : List Transformer) (r : Record)
    (bs : List Bool) (r2 : Record) (h : runEach ext ts r = .ok (bs, r2)) :
    chainTransform ext ts false r = .ok (bs.any id, r2) := by
  have h2 := chain_of_runEach ext ts r bs r2 false h
  simpa using h2

/-- Witness for claim C5 at a chain of two matchers where the first does not
fire and the second does: every member runs and the chain fires. -/
theorem c5_witness :
    chainTransform extW
      [Transformer.matcher ⟨[("payee", ⟨fun _ => none⟩)], []⟩,
       Transformer.matcher ⟨[], []⟩] false Record.new
      = .ok ([false, true].any id, { Record.new with transformed := true }) :=
  c5_chain extW
    [Transformer.matcher ⟨[("payee", ⟨fun _ => none⟩)], []⟩,
     Transformer.matcher ⟨[], []⟩]
    Record.new [false, true] { Record.new with transformed := true } rfl

/-! Matcher lemmas, claims C4 and C2. -/

theorem collectCaptures_none (r : Record) :
    ∀ (search : List (String × Regex)) (table : List (String × String)),
      (∃ kv ∈ search, ((r.get kv.1).bind kv.2.captures) = none) →
      collectCaptures r search table = none := by
  intro search
  induction search with
  | nil =>
    intro table h
    obtain ⟨kv, hm, _⟩ := h
    exact absurd hm (List.not_mem_nil kv)
  | cons kv rest ih =>
    intro table h
    obtain ⟨k, re⟩ := kv
    cases hg : r.get k with
    | none => simp [collectCaptures, hg]
    | some field =>
      cases hc : re.captures field with
      | none => simp [collectCaptures, hg, hc]
      | some caps =>
        have hrec : collectCaptures r ((k, re) :: rest) table
            = collectCaptures r rest (insertCaptures table caps) := by
          simp [collectCaptures, hg, hc]
        rw [hrec]
        apply ih
        obtain ⟨kv2, hm, hbind⟩ := h
        rcases List.mem_cons.mp hm with h1 | h2
        · subst h1; simp [hg, hc] at hbind
        · exact ⟨kv2, h2, hbind⟩

/-- Claim C4: if any search pattern of a Matcher has an absent field or fails
to match the field text, then transform returns false and the record is
returned completely unchanged. -/
theorem c4_matcher_no_fire (ext : Externals) (m : Matcher) (r : Record)
    (h : ∃ kv ∈ m.search, ((r.get kv.1).bind kv.2.captures) = none) :
    m.transform ext r = .ok (false, r) := by
  unfold Matcher.transform
  rw [collectCaptures_none r m.search [] h]

/-- Witness for claim C4: a matcher whose single payee pattern never matches
does not fire on a fresh record and leaves it unchanged. -/
theorem c4_witness :
    Matcher.transform ⟨[("payee", ⟨fun _ => none⟩)], []⟩ extW Record.new
      = .ok (false, Record.new) :=
  c4_matcher_no_fire extW ⟨[("payee", ⟨fun _ => none⟩)], []⟩ Record.new
    ⟨("payee", ⟨fun _ => none⟩), List.mem_cons_self _ _, rfl⟩

/-- Claim C2 (amended): whenever Matcher::transform changes any field of the
record, the transformed flag is true afterwards; Payees::transform however
never touches the flag, even when it rewrites the payee, so the claim holds
for Matchers only. -/
theorem c2_amended :
    (∀ (ext : Externals) (m : Matcher) (r : Record) (b : Bool) (r2 : Record),
        m.transform ext r = .ok (b, r2) → r2 ≠ r → r2.transformed = true)
    ∧ (∀ (p : Payees) (r : Record), (p.transform r).2.transformed = r.transformed) := by
  constructor
  · intro ext m r b r2 h hne
    unfold Matcher.transform at h
    cases hc : collectCaptures r m.search [] with
    | none =>
      rw [hc] at h
      simp only [Except.ok.injEq, Prod.mk.injEq] at h
      exact absurd h.2.symm hne
    | some table =>
      rw [hc] at h
      have h2 : (match applyReplaces ext table m.replace r with
          | Except.error e => Except.error e
          | Except.ok r3 => Except.ok (true, { r3 with transformed := true }))
          = Except.ok (b, r2) := h
      cases ha : applyReplaces ext table m.replace r with
      | error e => rw [ha] at h2; cases h2
      | ok r3 =>
        rw [ha] at h2
        simp only [Except.ok.injEq, Prod.mk.injEq] at h2
        rw [← h2.2]
  · intro p r
    obtain ⟨s, hs⟩ := payeesGo_payee_only p.strict r.payee p.aliases 0 r
    simp [Payees.transform, hs]

/-- Claim C2 as stated is false at a concrete input: a Payees resolver whose
alias set matches rewrites the payee of the record while the transformed flag
stays false. -/
theorem c2_counterexample :
    Payees.transform ⟨[("Canon", fun _ => true)], false⟩
        { date := "", payee := "x", category := "", memo := "", amount := ""
        , extra := [], transformed := false }
      = (true, { date := "", payee := "Canon", category := "", memo := ""
               , amount := "", extra := [], transformed := false })
    ∧ ({ date := "", payee := "Canon", category := "", memo := "", amount := ""
       , extra := [], transformed := false } : Record)
        ≠ { date := "", payee := "x", category := "", memo := "", amount := ""
          , extra := [], transformed := false }
    ∧ ({ date := "", payee := "Canon", category := "", memo := "", amount := ""
       , extra := [], transformed := false } : Record).transformed = false :=
  ⟨rfl, by decide, rfl⟩

/-- Witness for claim C2 (amended): a firing matcher rewrites the memo and
the flag is set; a firing payees resolver leaves the flag unchanged. -/
theorem c2_witness :
    ({ date := "", payee := "", category := "", memo := "x", amount := ""
     , extra := [], transformed := true } : Record).transformed = true
    ∧ (Payees.transform ⟨[("Canon", fun _ => true)], false⟩ Record.new).2.transformed
        = Record.new.transformed :=
  ⟨c2_amended.1 extW ⟨[("payee", ⟨fun _ => some []⟩)], [("memo", "x")]⟩ Record.new true
      { date := "", payee := "", category := "", memo := "x", amount := ""
      , extra := [], transformed := true }
      rfl (by decide),
   c2_amended.2 ⟨[("Canon", fun _ => true)], false⟩ Record.new⟩

/-! Template scanner lemmas. -/

theorem takeWord_append (l : List Char) : (takeWord l).1 ++ (takeWord l).2 = l := by
  induction l with
  | nil => rfl
  | cons c cs ih =>
    by_cases h : isWordChar c
    · simp [takeWord, h, ih]
    · simp [takeWord, h]

theorem takeWord_all (l : List Char) : ∀ c ∈ (takeWord l).1, isWordChar c = true := by
  induction l with
  | nil => intro c hc; simp [takeWord] at hc
  | cons c cs ih =>
    by_cases h : isWordChar c
    · intro x hx
      simp only [takeWord, h, if_true] at hx
      rcases List.mem_cons.mp hx with h1 | h2
      · subst h1; exact h
      · exact ih x h2
    · intro x hx
      simp [takeWord, h] at hx

theorem takeWord_word_append (w : List Char) (x : Char) (r : List Char)
    (hw : ∀ c ∈ w, isWordChar c = true) (hx : isWordChar x = false) :
    takeWord (w ++ x :: r) = (w, x :: r) := by
  induction w with
  | nil => simp [takeWord, hx]
  | cons c cs ih =>
    have hc : isWordChar c = true := hw c (List.mem_cons_self _ _)
    have ih2 := ih (fun d hd => hw d (List.mem_cons_of_mem _ hd))
    simp [takeWord, hc, ih2]

theorem matchPlaceholder_sound (t : List Char) (ph : String × Option String)
    (rest : List Char) (h : matchPlaceholder t = some (ph, rest)) :
    ∃ p, isPlaceholderString p = true ∧ p ++ rest = t := by
  unfold matchPlaceholder at h
  split at h
  case h_2 => cases h
  case h_1 cs =>
    rcases hw : takeWord cs with ⟨w1, r1⟩
    rw [hw] at h
    simp only at h
    by_cases he : w1.isEmpty
    · rw [if_pos he] at h; cases h
    · rw [if_neg he] at h
      have hw1 : ∀ c ∈ w1, isWordChar c = true := by
        intro c hc
        have := takeWord_all cs
        rw [hw] at this
        exact this c hc
      have hsplit : w1 ++ r1 = cs := by
        have := takeWord_append cs
        rw [hw] at this
        exact this
      split at h
      · rename_i rest2
        simp only [Option.some.injEq, Prod.mk.injEq] at h
        refine ⟨'$' :: '{' :: (w1 ++ ['}']), ?_, ?_⟩
        · simp only [isPlaceholderString]
          rw [takeWord_word_append w1 '}' [] hw1 (by decide)]
          simp [he]
        · rw [← h.2]
          simp only [List.cons_append, List.cons.injEq, true_and]
          rw [← hsplit]
          simp
      · rename_i cs2
        rcases hw2 : takeWord cs2 with ⟨w2, r2⟩
        rw [hw2] at h
        simp only at h
        by_cases he2 : w2.isEmpty
        · rw [if_pos he2] at h; cases h
        · rw [if_neg he2] at h
          have hww2 : ∀ c ∈ w2, isWordChar c = true := by
            intro c hc
            have := takeWord_all cs2
            rw [hw2] at this
            exact this c hc
          have hsplit2 : w2 ++ r2 = cs2 := by
            have := takeWord_append cs2
            rw [hw2] at this
            exact this
          split at h
          · rename_i rest3
            simp only [Option.some.injEq, Prod.mk.injEq] at h
            refine ⟨'$' :: '{' :: (w1 ++ '|' :: (w2 ++ ['}'])), ?_, ?_⟩
            · simp only [isPlaceholderString,
                takeWord_word_append w1 '|' (w2 ++ ['}']) hw1 (by decide),
                takeWord_word_append w2 '}' [] hww2 (by decide)]
              simp [he, he2]
            · rw [← h.2]
              simp only [List.cons_append, List.cons.injEq, true_and]
              rw [← hsplit, ← hsplit2]
              simp
          · cases h
      · cases h

theorem contains_of_hasPlaceholder (cs : List Char) (h : hasPlaceholder cs = true) :
    containsPlaceholder cs = true := by
  unfold hasPlaceholder at h
  rw [List.any_eq_true] at h
  obtain ⟨t, ht, hm⟩ := h
  rw [Option.isSome_iff_exists] at hm
  obtain ⟨pr, hmp⟩ := hm
  obtain ⟨ph, rest⟩ := pr
  obtain ⟨p, hps, hpre⟩ := matchPlaceholder_sound t ph rest hmp
  unfold containsPlaceholder
  rw [List.any_eq_true]
  refine ⟨t, ht, ?_⟩
  rw [List.any_eq_true]
  exact ⟨p, (List.mem_inits p t).mpr ⟨rest, hpre⟩, hps⟩

theorem scanGo_no_placeholder :
    ∀ (fuel : Nat) (cs : List Char), hasPlaceholder cs = false →
      scanGo fuel cs = ([], cs) := by
  intro fuel
  induction fuel with
  | zero => intro cs h; cases cs <;> rfl
  | succ fuel ih =>
    intro cs h
    cases cs with
    | nil => rfl
    | cons c cs2 =>
      unfold hasPlaceholder at h
      rw [List.tails_cons, List.any_cons, Bool.or_eq_false_iff] at h
      have hmp : matchPlaceholder (c :: cs2) = none :=
        Option.not_isSome_iff_eq_none.mp (by simp [h.1])
      have hrest : hasPlaceholder cs2 = false := h.2
      simp [scanGo, hmp, ih cs2 hrest]

/-- Claim C7: for any lookup function, interpolate is the identity on a
template containing no placeholder-shaped substring; the result does not
depend on the lookup function at all (the fast path never invokes it). -/
theorem c7_no_placeholder_identity (ext : Externals) (tmpl : String)
    (f g : String → String) (h : containsPlaceholder tmpl.data = false) :
    interpolate ext tmpl f = .ok tmpl ∧ interpolate ext tmpl f = interpolate ext tmpl g := by
  have hp : hasPlaceholder tmpl.data = false := by
    by_contra hc
    rw [Bool.not_eq_false] at hc
    rw [contains_of_hasPlaceholder tmpl.data hc] at h
    cases h
  refine ⟨?_, ?_⟩ <;> simp [interpolate, hp]

/-- Witness for claim C7 at a concrete placeholder-free template and two
different lookup functions. -/
theorem c7_witness :
    interpolate extW "hello!" (fun _ => "a") = .ok "hello!"
    ∧ interpolate extW "hello!" (fun _ => "a") = interpolate extW "hello!" (fun _ => "b") :=
  c7_no_placeholder_identity extW "hello!" (fun _ => "a") (fun _ => "b") (by decide)

/-! Template command and interpolation failure lemmas, claim C6. -/

theorem applyCommand_error_iff (ext : Externals) (key value c : String) :
    (∃ e, applyCommand ext key value c = .error e) ↔
      ((c = "not_empty" ∧ value = "") ∨
       (c ≠ "title_case" ∧ c ≠ "lowercase" ∧ c ≠ "uppercase" ∧ c ≠ "not_empty")) := by
  unfold applyCommand
  by_cases h1 : c = "title_case"
  · simp [h1]
  · by_cases h2 : c = "lowercase"
    · simp [h1, h2]
    · by_cases h3 : c = "uppercase"
      · simp [h1, h2, h3]
      · by_cases h4 : c = "not_empty"
        · by_cases hv : value = ""
          · simp [h1, h2, h3, h4, hv]
            exact ⟨TemplateError.emptyValue key, rfl⟩
          · have hne : value.isEmpty = false := by
              rw [Bool.eq_false_iff]
              intro hh
              exact hv ((String.isEmpty_iff value).mp hh)
            simp [h1, h2, h3, h4, hv, hne]
        · simp [h1, h2, h3, h4]

theorem interpGo_error_iff (ext : Externals) (func : String → String) :
    ∀ segs : List (List Char × (String × Option String)),
      (∃ e, interpGo ext func segs = .error e) ↔
        ∃ pc ∈ segs.map Prod.snd, badPlaceholder func pc := by
  intro segs
  induction segs with
  | nil => simp [interpGo]
  | cons seg rest ih =>
    obtain ⟨lit, key, command⟩ := seg
    cases command with
    | none =>
      cases hr : interpGo ext func rest with
      | error e2 =>
        constructor
        · intro _
          obtain ⟨pc, hm, hb⟩ := ih.mp ⟨e2, hr⟩
          exact ⟨pc, by simp only [List.map_cons]; exact List.mem_cons_of_mem _ hm, hb⟩
        · intro _
          exact ⟨e2, by simp [interpGo, hr]⟩
      | ok t =>
        constructor
        · intro ⟨e, he⟩
          simp [interpGo, hr] at he
        · intro ⟨pc, hm, hb⟩
          rw [List.map_cons] at hm
          rcases List.mem_cons.mp hm with h1 | h2
          · subst h1; simp [badPlaceholder] at hb
          · obtain ⟨e, he⟩ := ih.mpr ⟨pc, h2, hb⟩
            rw [hr] at he; cases he
    | some c =>
      cases happly : applyCommand ext key (func key) c with
      | error e0 =>
        have hbad : badPlaceholder func (key, some c) := by
          have hb := (applyCommand_error_iff ext key (func key) c).mp ⟨e0, happly⟩
          simpa [badPlaceholder] using hb
        constructor
        · intro _
          exact ⟨(key, some c), by simp, hbad⟩
        · intro _
          exact ⟨e0, by simp [interpGo, happly]⟩
      | ok v2 =>
        have hnotbad : ¬ badPlaceholder func (key, some c) := by
          intro hb
          obtain ⟨e, he⟩ := (applyCommand_error_iff ext key (func key) c).mpr
            (by simpa [badPlaceholder] using hb)
          rw [happly] at he; cases he
        cases hr : interpGo ext func rest with
        | error e2 =>
          constructor
          · intro _
            obtain ⟨pc, hm, hb⟩ := ih.mp ⟨e2, hr⟩
            exact ⟨pc, by simp only [List.map_cons]; exact List.mem_cons_of_mem _ hm, hb⟩
          · intro _
            exact ⟨e2, by simp [interpGo, happly, hr]⟩
        | ok t =>
          constructor
          · intro ⟨e, he⟩
            simp [interpGo, happly, hr] at he
          · intro ⟨pc, hm, hb⟩
            rw [List.map_cons] at hm
            rcases List.mem_cons.mp hm with h1 | h2
            · subst h1; exact absurd hb hnotbad
            · obtain ⟨e, he⟩ := ih.mpr ⟨pc, h2, hb⟩
              rw [hr] at he; cases he

/-- Claim C6: interpolation fails exactly when some placeholder of the
template carries the command not_empty while the looked-up value for its key
is empty, or carries a command name other than title_case, lowercase,
uppercase, not_empty; in every other case it returns an expanded string. -/
theorem c6_interpolate_error_iff (ext : Externals) (tmpl : String)
    (func : String → String) :
    (∃ e, interpolate ext tmpl func = .error e) ↔
      ∃ pc ∈ (scan tmpl.data).1.map Prod.snd, badPlaceholder func pc := by
  unfold interpolate
  by_cases hp : hasPlaceholder tmpl.data = true
  · simp only [hp, if_true]
    cases hi : interpGo ext func (scan tmpl.data).1 with
    | error e =>
      constructor
      · intro _
        exact (interpGo_error_iff ext func _).mp ⟨e, hi⟩
      · intro _
        exact ⟨e, by simp [hi]⟩
    | ok s =>
      constructor
      · intro ⟨e, he⟩
        simp [hi] at he
      · intro hbad
        obtain ⟨e, he⟩ := (interpGo_error_iff ext func _).mpr hbad
        rw [hi] at he; cases he
  · have hp2 : hasPlaceholder tmpl.data = false := by simpa using hp
    have hscan : scan tmpl.data = ([], tmpl.data) :=
      scanGo_no_placeholder tmpl.data.length tmpl.data hp2
    simp [hp2, hscan]

/-- Witness for claim C6: a template with an unknown command fails for every
lookup function; here at a concrete lookup. -/
theorem c6_witness :
    ∃ e, interpolate extW "${a|bogus}" (fun _ => "v") = .error e :=
  (c6_interpolate_error_iff extW "${a|bogus}" (fun _ => "v")).mpr
    ⟨("a", some "bogus"), by decide,
     Or.inr ⟨by decide, by decide, by decide, by decide⟩⟩

/-! Decimal separator lemmas and claim C8. -/

theorem isDigit_ne (c x : Char) (hd : c.isDigit = true) (hx : ¬ x.isDigit = true) :
    c ≠ x := by
  intro he; subst he; exact hx hd

theorem removeChar_joinGroups (sep : Char) (gs : List (List Char))
    (h : ∀ g ∈ gs, ∀ c ∈ g, (c != sep) = true) :
    removeChar sep (joinGroups sep gs) = gs.flatten := by
  induction gs with
  | nil => rfl
  | cons g gs ih =>
    cases gs with
    | nil =>
      show (joinGroups sep [g]).filter (fun x => x != sep) = [g].flatten
      rw [show joinGroups sep [g] = g from rfl,
        List.filter_eq_self.mpr (h g (List.mem_cons_self _ _))]
      simp
    | cons g2 gs2 =>
      have hg : ∀ c ∈ g, (c != sep) = true := h g (List.mem_cons_self _ _)
      have ih2 := ih (fun g3 hg3 => h g3 (List.mem_cons_of_mem _ hg3))
      show ((g ++ sep :: joinGroups sep (g2 :: gs2)).filter (fun x => x != sep))
          = g ++ (g2 :: gs2).flatten
      rw [List.filter_append, List.filter_eq_self.mpr hg, List.filter_cons_of_neg]
      · unfold removeChar at ih2
        rw [ih2]
      · simp

theorem swapChar_no_occurrence (a b : Char) (l : List Char)
    (h : ∀ c ∈ l, ¬ c = a) : swapChar a b l = l := by
  induction l with
  | nil => rfl
  | cons c cs ih =>
    have hc : ¬ c = a := h c (List.mem_cons_self _ _)
    have ih2 := ih (fun d hd => h d (List.mem_cons_of_mem _ hd))
    simp only [swapChar, List.map_cons, if_neg hc]
    unfold swapChar at ih2
    rw [ih2]

/-- Claim C8: a decimal numeral written with comma grouping and period
decimal is simplified by Period to the same numeral with the grouping marks
removed, and a numeral written with period grouping and comma decimal is
simplified by Comma to the equivalent canonical period-decimal numeral with
no grouping marks. -/
theorem c8_simplify_canonical (gs : List (List Char)) (frac : Option (List Char))
    (hgs : ∀ g ∈ gs, ∀ c ∈ g, c.isDigit = true)
    (hfrac : ∀ f ∈ frac, ∀ c ∈ f, c.isDigit = true) :
    DecimalSeparator.Period.simplify (renderGrouped ',' '.' gs frac)
      = renderCanonical gs frac
    ∧ DecimalSeparator.Comma.simplify (renderGrouped '.' ',' gs frac)
      = renderCanonical gs frac := by
  have hgs_comma : ∀ g ∈ gs, ∀ c ∈ g, (c != ',') = true := by
    intro g hg c hc
    exact bne_iff_ne.mpr (isDigit_ne c ',' (hgs g hg c hc) (by decide))
  have hgs_period : ∀ g ∈ gs, ∀ c ∈ g, (c != '.') = true := by
    intro g hg c hc
    exact bne_iff_ne.mpr (isDigit_ne c '.' (hgs g hg c hc) (by decide))
  constructor
  · have h1 : removeChar ',' (joinGroups ',' gs ++ fracPart '.' frac)
        = gs.flatten ++ fracPart '.' frac := by
      unfold removeChar
      rw [List.filter_append]
      have hj := removeChar_joinGroups ',' gs hgs_comma
      unfold removeChar at hj
      rw [hj]
      congr 1
      cases frac with
      | none => rfl
      | some f =>
        apply List.filter_eq_self.mpr
        intro c hc
        rcases List.mem_cons.mp hc with h2 | h2
        · subst h2; decide
        · exact bne_iff_ne.mpr (isDigit_ne c ',' (hfrac f rfl c h2) (by decide))
    show String.mk (removeChar ',' (joinGroups ',' gs ++ fracPart '.' frac))
        = String.mk (gs.flatten ++ fracPart '.' frac)
    rw [h1]
  · have h1 : removeChar '.' (joinGroups '.' gs ++ fracPart ',' frac)
        = gs.flatten ++ fracPart ',' frac := by
      unfold removeChar
      rw [List.filter_append]
      have hj := removeChar_joinGroups '.' gs hgs_period
      unfold removeChar at hj
      rw [hj]
      congr 1
      cases frac with
      | none => rfl
      | some f =>
        apply List.filter_eq_self.mpr
        intro c hc
        rcases List.mem_cons.mp hc with h2 | h2
        · subst h2; decide
        · exact bne_iff_ne.mpr (isDigit_ne c '.' (hfrac f rfl c h2) (by decide))
    have h2 : swapChar ',' '.' (gs.flatten ++ fracPart ',' frac)
        = gs.flatten ++ fracPart '.' frac := by
      unfold swapChar
      rw [List.map_append]
      have hfl : gs.flatten.map (fun x => if x = ',' then '.' else x) = gs.flatten := by
        have := swapChar_no_occurrence ',' '.' gs.flatten (by
          intro c hc he
          obtain ⟨g, hg, hcg⟩ := List.mem_flatten.mp hc
          exact isDigit_ne c ',' (hgs g hg c hcg) (by decide) he)
        unfold swapChar at this
        exact this
      rw [hfl]
      congr 1
      cases frac with
      | none => rfl
      | some f =>
        have hf : f.map (fun x => if x = ',' then '.' else x) = f := by
          have := swapChar_no_occurrence ',' '.' f (by
            intro c hc he
            exact isDigit_ne c ',' (hfrac f rfl c hc) (by decide) he)
          unfold swapChar at this
          exact this
        show (',' :: f).map (fun x => if x = ',' then '.' else x) = '.' :: f
        rw [List.map_cons, if_pos rfl, hf]
    show String.mk (swapChar ',' '.' (removeChar '.' (joinGroups '.' gs ++ fracPart ',' frac)))
        = String.mk (gs.flatten ++ fracPart '.' frac)
    rw [h1, h2]

/-- Witness for claim C8 at the grouped numerals 1,234.50 and 1.234,50. -/
theorem c8_witness :
    DecimalSeparator.Period.simplify
        (renderGrouped ',' '.' [['1'], ['2', '3', '4']] (some ['5', '0']))
      = renderCanonical [['1'], ['2', '3', '4']] (some ['5', '0'])
    ∧ DecimalSeparator.Comma.simplify
        (renderGrouped '.' ',' [['1'], ['2', '3', '4']] (some ['5', '0']))
      = renderCanonical [['1'], ['2', '3', '4']] (some ['5', '0']) :=
  c8_simplify_canonical [['1'], ['2', '3', '4']] (some ['5', '0'])
    (by decide) (by intro f hf; cases hf; decide)

/-! Record::from lemmas, claims C3 and C10. -/

theorem stepRecord_frame (ext : Externals) (col : Field) (v : String) (r r1 : Record)
    (h : stepRecord ext col v r = some r1) (k : String) (hk : keyOf col ≠ some k) :
    r1.get k = r.get k := by
  cases col with
  | Ignore =>
    simp only [stepRecord, Option.some.injEq] at h
    subst h; rfl
  | Date format =>
    have hk2 : k ≠ "date" := fun he => hk (by rw [he]; rfl)
    simp only [stepRecord] at h
    by_cases hf : format = ""
    · rw [if_pos hf] at h
      simp only [Option.some.injEq] at h
      subst h
      exact get_update_date r v k hk2
    · rw [if_neg hf] at h
      cases hd : ext.parseDate format v with
      | none => rw [hd] at h; exact absurd h (by simp)
      | some d =>
        rw [hd] at h
        simp only [Option.some.injEq] at h
        subst h
        exact get_update_date r d k hk2
  | Payee =>
    have hk2 : k ≠ "payee" := fun he => hk (by rw [he]; rfl)
    simp only [stepRecord, Option.some.injEq] at h
    subst h
    exact get_update_payee r v k hk2
  | Category =>
    have hk2 : k ≠ "category" := fun he => hk (by rw [he]; rfl)
    simp only [stepRecord, Option.some.injEq] at h
    subst h
    exact get_update_category r v k hk2
  | Memo =>
    have hk2 : k ≠ "memo" := fun he => hk (by rw [he]; rfl)
    simp only [stepRecord, Option.some.injEq] at h
    subst h
    exact get_update_memo r v k hk2
  | Inflow sep =>
    have hk2 : k ≠ "amount" := fun he => hk (by rw [he]; rfl)
    simp only [stepRecord, Option.some.injEq] at h
    subst h
    exact get_update_amount r (sep.simplify v) k hk2
  | Outflow sep =>
    have hk2 : k ≠ "amount" := fun he => hk (by rw [he]; rfl)
    simp only [stepRecord, Option.some.injEq] at h
    subst h
    exact get_update_amount r ("-" ++ sep.simplify v) k hk2
  | Extra key2 =>
    have hk2 : key2 ≠ k := fun he => hk (by rw [he]; rfl)
    simp only [stepRecord, Option.some.injEq] at h
    subst h
    exact get_update_extra_ne r key2 v k hk2

theorem stepRecord_set (ext : Externals) (col : Field) (v : String) (r r1 : Record)
    (h : stepRecord ext col v r = some r1) (hex : extraOk col = true)
    (k : String) (hkey : keyOf col = some k) :
    r1.get k = derivedValue ext col v := by
  cases col with
  | Ignore => cases hkey
  | Date format =>
    have hk : k = "date" := by
      simp only [keyOf, Option.some.injEq] at hkey
      exact hkey.symm
    subst hk
    simp only [stepRecord] at h
    simp only [derivedValue]
    by_cases hf : format = ""
    · rw [if_pos hf] at h
      rw [if_pos hf]
      simp only [Option.some.injEq] at h
      subst h
      exact get_date_set r v
    · rw [if_neg hf] at h
      rw [if_neg hf]
      cases hd : ext.parseDate format v with
      | none => rw [hd] at h; exact absurd h (by simp)
      | some d =>
        rw [hd] at h
        simp only [Option.some.injEq] at h
        subst h
        exact get_date_set r d
  | Payee =>
    have hk : k = "payee" := by
      simp only [keyOf, Option.some.injEq] at hkey
      exact hkey.symm
    subst hk
    simp only [stepRecord, Option.some.injEq] at h
    subst h
    exact get_payee_set r v
  | Category =>
    have hk : k = "category" := by
      simp only [keyOf, Option.some.injEq] at hkey
      exact hkey.symm
    subst hk
    simp only [stepRecord, Option.some.injEq] at h
    subst h
    exact get_category_set r v
  | Memo =>
    have hk : k = "memo" := by
      simp only [keyOf, Option.some.injEq] at hkey
      exact hkey.symm
    subst hk
    simp only [stepRecord, Option.some.injEq] at h
    subst h
    exact get_memo_set r v
  | Inflow sep =>
    have hk : k = "amount" := by
      simp only [keyOf, Option.some.injEq] at hkey
      exact hkey.symm
    subst hk
    simp only [stepRecord, Option.some.injEq] at h
    subst h
    exact get_amount_set r (sep.simplify v)
  | Outflow sep =>
    have hk : k = "amount" := by
      simp only [keyOf, Option.some.injEq] at hkey
      exact hkey.symm
    subst hk
    simp only [stepRecord, Option.some.injEq] at h
    subst h
    exact get_amount_set r ("-" ++ sep.simplify v)
  | Extra key2 =>
    have hk : k = key2 := by
      simp only [keyOf, Option.some.injEq] at hkey
      exact hkey.symm
    subst hk
    simp only [stepRecord, Option.some.injEq] at h
    subst h
    have hcan : canonicalKeys.contains k = false := by
      simpa [extraOk] using hex
    exact get_extra_set r k v hcan

theorem stepRecord_isSome (ext : Externals) (col : Field) (v : String) (r : Record)
    (hd : (match col with
      | Field.Date format => format == "" || (ext.parseDate format v).isSome
      | _ => true) = true) :
    ∃ r1, stepRecord ext col v r = some r1 := by
  cases col with
  | Ignore => exact ⟨_, rfl⟩
  | Date format =>
    simp only at hd
    by_cases hf : format = ""
    · exact ⟨{ r with date := v }, by simp [stepRecord, hf]⟩
    · have hf2 : (format == "") = false := by simp [hf]
      rw [hf2, Bool.false_or] at hd
      obtain ⟨d, hdd⟩ := Option.isSome_iff_exists.mp hd
      exact ⟨{ r with date := d }, by simp [stepRecord, hf, hdd]⟩
  | Payee => exact ⟨_, rfl⟩
  | Category => exact ⟨_, rfl⟩
  | Memo => exact ⟨_, rfl⟩
  | Inflow sep => exact ⟨_, rfl⟩
  | Outflow sep => exact ⟨_, rfl⟩
  | Extra key2 => exact ⟨_, rfl⟩

theorem fromGo_frame (ext : Externals) (k : String) :
    ∀ (cols : List Field) (vs : List String) (r r2 : Record),
      fromGo ext vs cols r = some r2 →
      (∀ f ∈ cols, keyOf f ≠ some k) →
      r2.get k = r.get k := by
  intro cols
  induction cols with
  | nil =>
    intro vs r r2 h hf
    cases vs with
    | nil =>
      simp only [fromGo, Option.some.injEq] at h
      subst h; rfl
    | cons v vs =>
      simp only [fromGo, Option.some.injEq] at h
      subst h; rfl
  | cons col cols ih =>
    intro vs r r2 h hf
    cases vs with
    | nil => simp [fromGo] at h
    | cons v vs =>
      cases hs : stepRecord ext col v r with
      | none => simp [fromGo, hs] at h
      | some r1 =>
        simp only [fromGo, hs] at h
        rw [ih vs r1 r2 h (fun f hf2 => hf f (List.mem_cons_of_mem _ hf2))]
        exact stepRecord_frame ext col v r r1 hs k (hf col (List.mem_cons_self _ _))

theorem fromGo_append (ext : Externals) :
    ∀ (cols1 cols2 : List Field) (vs : List String) (r : Record),
      fromGo ext vs (cols1 ++ cols2) r =
        match fromGo ext (vs.take cols1.length) cols1 r with
        | none => none
        | some r1 => fromGo ext (vs.drop cols1.length) cols2 r1 := by
  intro cols1
  induction cols1 with
  | nil =>
    intro cols2 vs r
    simp [fromGo]
  | cons col cols ih =>
    intro cols2 vs r
    cases vs with
    | nil => simp [fromGo]
    | cons v vs =>
      simp only [List.cons_append, List.length_cons, List.take_succ_cons,
        List.drop_succ_cons]
      cases hs : stepRecord ext col v r with
      | none => simp [fromGo, hs]
      | some r1 =>
        simp only [fromGo, hs]
        exact ih cols2 vs r1

theorem getD_of_drop_cons :
    ∀ (l : List String) (n : Nat) (v : String) (rest : List String),
      l.drop n = v :: rest → l.getD n "" = v := by
  intro l
  induction l with
  | nil =>
    intro n v rest h
    rw [List.drop_nil] at h
    cases h
  | cons c cs ih =>
    intro n v rest h
    cases n with
    | zero =>
      simp only [List.drop_zero] at h
      cases h
      rfl
    | succ n =>
      rw [List.drop_succ_cons] at h
      rw [List.getD_cons_succ]
      exact ih n v rest h

theorem fromGo_main (ext : Externals) :
    ∀ (cols : List Field) (vs : List String) (r : Record),
      vs.length = cols.length → datesOk ext vs cols = true →
      ∃ r2, fromGo ext vs cols r = some r2 ∧
        ∀ i, i < cols.length → lastForKey cols i = true →
          extraOk (cols.getD i Field.Ignore) = true →
          ∀ k, keyOf (cols.getD i Field.Ignore) = some k →
            r2.get k = derivedValue ext (cols.getD i Field.Ignore) (vs.getD i "") := by
  intro cols
  induction cols with
  | nil =>
    intro vs r hlen hd
    refine ⟨r, ?_, ?_⟩
    · cases vs with
      | nil => rfl
      | cons v vs => simp at hlen
    · intro i hi
      simp at hi
  | cons col cols ih =>
    intro vs r hlen hd
    cases vs with
    | nil => simp at hlen
    | cons v vs =>
      have hlen2 : vs.length = cols.length := by simpa using hlen
      have hd12 := hd
      simp only [datesOk, Bool.and_eq_true] at hd12
      obtain ⟨hd1, hd2⟩ := hd12
      obtain ⟨r1, hr1⟩ := stepRecord_isSome ext col v r hd1
      obtain ⟨r2, hr2, hprop⟩ := ih vs r1 hlen2 hd2
      refine ⟨r2, ?_, ?_⟩
      · simp only [fromGo, hr1]
        exact hr2
      · intro i hi hlast hex k hkey
        cases i with
        | zero =>
          have hlast2 : cols.all (fun f => keyOf f != keyOf col) = true := hlast
          have hkey2 : keyOf col = some k := hkey
          have hex2 : extraOk col = true := hex
          have hnot : ∀ f ∈ cols, keyOf f ≠ some k := by
            intro f hf
            have hall := List.all_eq_true.mp hlast2 f hf
            rw [← hkey2]
            exact bne_iff_ne.mp hall
          have hframe : r2.get k = r1.get k :=
            fromGo_frame ext k cols vs r1 r2 hr2 hnot
          have hset : r1.get k = derivedValue ext col v :=
            stepRecord_set ext col v r r1 hr1 hex2 k hkey2
          show r2.get k
              = derivedValue ext ((col :: cols).getD 0 Field.Ignore) ((v :: vs).getD 0 "")
          rw [hframe, hset]
          rfl
        | succ j =>
          have hj : j < cols.length := by simpa using hi
          have hlast2 : lastForKey cols j = true := hlast
          have hex2 : extraOk (cols.getD j Field.Ignore) = true := hex
          have hkey2 : keyOf (cols.getD j Field.Ignore) = some k := hkey
          exact hprop j hj hlast2 hex2 k hkey2

/-- Claim C3 (amended): for an input row whose column count equals the
mapping length and whose non-empty-format Date entries all parse their
cells, Record::from succeeds; and every non-Ignore entry that is the last
entry writing its key (Inflow and Outflow both write the amount key) and, if
an Extra entry, does not shadow a canonical key, has its derived value
retrievable via Record::get under the expected key. -/
theorem c3_amended (ext : Externals) (row : List String) (mapping : List Field)
    (hlen : row.length = mapping.length) (hdates : datesOk ext row mapping = true) :
    ∃ rec, Record.fromRow ext row mapping = some rec ∧
      ∀ i, i < mapping.length → lastForKey mapping i = true →
        extraOk (mapping.getD i Field.Ignore) = true →
        ∀ k, keyOf (mapping.getD i Field.Ignore) = some k →
          rec.get k = derivedValue ext (mapping.getD i Field.Ignore) (row.getD i "") :=
  fromGo_main ext mapping row Record.new hlen hdates

/-- Claim C3 as stated is false at concrete inputs: a Date column with
non-empty format and an unparseable cell makes Record::from fail even though
the row matches the mapping length; and with two Payee columns plus an Extra
column keyed date, the first Payee value and the Extra value are not
retrievable via get. -/
theorem c3_counterexample :
    Record.fromRow extW ["bad"] [Field.Date "%d"] = none
    ∧ Record.fromRow extW ["a", "b", "x"]
        [Field.Payee, Field.Payee, Field.Extra "date"]
        = some { date := "", payee := "b", category := "", memo := "", amount := ""
               , extra := [("date", "x")], transformed := false }
    ∧ ({ date := "", payee := "b", category := "", memo := "", amount := ""
       , extra := [("date", "x")], transformed := false } : Record).get "payee"
        ≠ some "a"
    ∧ ({ date := "", payee := "b", category := "", memo := "", amount := ""
       , extra := [("date", "x")], transformed := false } : Record).get "date"
        ≠ some "x" :=
  ⟨rfl, rfl, by decide, by decide⟩

/-- Witness for claim C3 (amended) at a three-column bank row with a parsed
date, a payee and an outflow amount. -/
theorem c3_witness :
    ∃ rec, Record.fromRow extW2 ["01/15/2023", "Coffee Shop", "4.50"]
        [Field.Date "%m/%d/%Y", Field.Payee, Field.Outflow DecimalSeparator.Period]
        = some rec ∧
      ∀ i, i < ([Field.Date "%m/%d/%Y", Field.Payee,
            Field.Outflow DecimalSeparator.Period] : List Field).length →
        lastForKey [Field.Date "%m/%d/%Y", Field.Payee,
            Field.Outflow DecimalSeparator.Period] i = true →
        extraOk (([Field.Date "%m/%d/%Y", Field.Payee,
            Field.Outflow DecimalSeparator.Period] : List Field).getD i Field.Ignore)
          = true →
        ∀ k, keyOf (([Field.Date "%m/%d/%Y", Field.Payee,
            Field.Outflow DecimalSeparator.Period] : List Field).getD i Field.Ignore)
          = some k →
          rec.get k = derivedValue extW2
            (([Field.Date "%m/%d/%Y", Field.Payee,
                Field.Outflow DecimalSeparator.Period] : List Field).getD i Field.Ignore)
            ((["01/15/2023", "Coffee Shop", "4.50"] : List String).getD i "") :=
  c3_amended extW2 ["01/15/2023", "Coffee Shop", "4.50"]
    [Field.Date "%m/%d/%Y", Field.Payee, Field.Outflow DecimalSeparator.Period]
    (by decide) (by decide)

/-- Claim C10: an Outflow mapping entry unconditionally writes the amount
slot as a minus sign followed by the simplified cell text (for an empty cell
the amount is exactly the minus sign), overwriting any amount written by an
earlier Inflow or Outflow column, provided no later entry writes amount. -/
theorem c10_outflow_last_write (ext : Externals) (row : List String)
    (pre post : List Field) (sep : DecimalSeparator) (rec : Record)
    (hsucc : Record.fromRow ext row (pre ++ Field.Outflow sep :: post) = some rec)
    (hpost : ∀ f ∈ post, keyOf f ≠ some "amount") :
    rec.amount = "-" ++ sep.simplify (row.getD pre.length "") := by
  unfold Record.fromRow at hsucc
  rw [fromGo_append ext pre (Field.Outflow sep :: post) row Record.new] at hsucc
  cases hpre : fromGo ext (row.take pre.length) pre Record.new with
  | none => rw [hpre] at hsucc; cases hsucc
  | some r1 =>
    rw [hpre] at hsucc
    have hsucc2 : fromGo ext (row.drop pre.length) (Field.Outflow sep :: post) r1
        = some rec := hsucc
    cases hdrop : row.drop pre.length with
    | nil => rw [hdrop] at hsucc2; simp [fromGo] at hsucc2
    | cons v rest =>
      rw [hdrop] at hsucc2
      have hsucc3 : fromGo ext rest post { r1 with amount := "-" ++ sep.simplify v }
          = some rec := by
        simpa [fromGo, stepRecord] using hsucc2
      have hframe := fromGo_frame ext "amount" post rest _ rec hsucc3 hpost
      rw [get_amount, get_amount] at hframe
      rw [getD_of_drop_cons row pre.length v rest hdrop]
      exact Option.some.inj hframe

/-- Witness for claim C10: an Inflow column writes 5, then an Outflow column
with an empty cell overwrites the amount with exactly the minus sign. -/
theorem c10_witness :
    ({ date := "", payee := "", category := "", memo := "", amount := "-"
     , extra := [], transformed := false } : Record).amount
      = "-" ++ DecimalSeparator.Period.simplify ((["5", ""] : List String).getD 1 "") :=
  c10_outflow_last_write extW ["5", ""] [Field.Inflow DecimalSeparator.Period] []
    DecimalSeparator.Period
    { date := "", payee := "", category := "", memo := "", amount := "-"
    , extra := [], transformed := false }
    rfl (by simp)

end Ynap
